import Mathlib

/-!
Verification of the YAML-to-JSON node-tree converter of the yj repository
(files src/yaml/decoder.go and src/yaml/json.go).

The Go code walks a parsed YAML node tree (gopkg.in/yaml.v3 nodes) and
produces a JSON-safe value graph.  Node identity matters (alias resolution
and cycle detection key off node pointers), so the tree is embedded as a
heap: a list of nodes addressed by natural-number identifiers, with the
Alias field of an alias node holding the identifier of its anchor target.
Go pointer identity becomes identifier equality.

The recursive walk of decoder.go can diverge on heaps with cyclic Content
edges (which a real parser never produces), so the interpreter is
fuel-indexed: every recursive call consumes one unit of fuel, and fuel
exhaustion is a distinguished error distinct from every error the Go code
can raise.  A theorem below shows that on heaps whose Content edges are
well-founded (true of every parser-produced tree, where only Alias edges
can point back up) enough fuel exists, so the fuel error is unreachable
and the interpreter computes exactly what the Go code computes.

The Go panic / catchFailure discipline is embedded as an Except value
threaded through every call.  Since the Go Decoder mutates its receiver
fields (decodeCount, aliasCount, aliasDepth, aliases) and a panic leaves
those fields as they were at the moment of the panic, the error case also
carries the decoder state at the time of the failure.

Go float64 values are embedded as a tagged type separating NaN, the two
infinities, and finite values (represented exactly as rationals); the
float comparisons the code performs on the alias-ratio thresholds are
carried out exactly in the rationals.

The package order (order.MapSlice and its Merge method) belongs to the
repository but is not among the provided sources; MapSlice.Merge below is
modelled from the specification and marked as such.
-/

namespace Yj

/-- Go float64, embedded as a tagged union: NaN, the infinities, and finite
values represented exactly. -/
inductive GoFloat where
  | nan
  | posInf
  | negInf
  | finite (q : ℚ)

/-- The values flowing through the converter (Go interface values): the
JSON-safe output kinds plus three artefacts the code distinguishes, a
typed nil float pointer (used by Unmarshal as the NaN sentinel, non-nil as
an interface value), float32 (rejected by jsonifyOther), and a decoded
time.Time (the yaml library decodes timestamp scalars to time.Time, whose
reflected kind Struct passes jsonifyOther and which implements
fmt.Stringer; the timev constructor carries the rendering its String
method produces). -/
inductive GoValue where
  | null
  | boolv (b : Bool)
  | intv (i : Int)
  | floatv (f : GoFloat)
  | float32v (q : ℚ)
  | strv (s : String)
  | timev (s : String)
  | seqv (l : List GoValue)
  | mapv (m : List (String × GoValue))
  | nilFloatPtr

/-- order.MapSlice: an insertion-ordered list of key/value pairs. -/
abbrev MapSlice := List (String × GoValue)

/-- True when the map already holds the key. -/
def containsKey (m : MapSlice) (k : String) : Bool :=
  m.any (fun kv => kv.1 == k)

/-- First value stored under the key, if any. -/
def lookupKey (m : MapSlice) (k : String) : Option GoValue :=
  (m.find? (fun kv => kv.1 == k)).map (fun kv => kv.2)

/-- Modelled from the spec: the Merge method of order.MapSlice (the order
package of the repository is not among the provided sources).  Section 4.3:
existing explicit keys win, merge-supplied keys are only added if not
already present, prior insertion order of the accumulator is preserved and
genuinely new keys are appended in the order the merge source introduces
them. -/
def MapSlice.Merge (m ms : MapSlice) : MapSlice :=
  m ++ ms.filter (fun kv => ! containsKey m kv.1)

/-- The node kinds of gopkg.in/yaml.v3 that decoder.go dispatches on,
plus the zero kind (Go case 0) and a stand-in for any other kind value. -/
inductive NodeKind where
  | document
  | aliasK
  | scalar
  | mapping
  | sequence
  | zeroK
  | unknown
deriving DecidableEq

/-- A yaml.v3 node.  Content holds child identifiers (keys at even, values
at odd positions for mappings), Alias the anchor target of an alias node.
The field decoded is the result of the yaml library call n.Decode on a
scalar node (none embeds a decode error), and isZero the result of
n.IsZero. -/
structure Node where
  Kind : NodeKind := .zeroK
  Tag : String := ""
  Value : String := ""
  Content : List Nat := []
  Alias : Nat := 0
  decoded : Option GoValue := none
  isZero : Bool := true

/-- A node tree with identity: nodes addressed by position. -/
abbrev Heap := List Node

/-- The configuration fields of the Go Decoder struct: the caller-supplied
key marshaller and the three optional non-finite float sentinels (a Go nil
interface is none). -/
structure DecoderCfg where
  KeyMarshal : GoValue → Except String String
  NaN : Option GoValue := none
  PosInf : Option GoValue := none
  NegInf : Option GoValue := none

/-- The mutable state fields of the Go Decoder struct: the in-progress
alias set (keyed by node identity), the recorded document node, and the
three counters.  These are receiver fields in Go, so they live across
calls on the same Decoder value. -/
structure DState where
  aliases : List Nat := []
  doc : Option Nat := none
  decodeCount : Nat := 0
  aliasCount : Nat := 0
  aliasDepth : Nat := 0
deriving DecidableEq

/-- The zero value of the Decoder state, as for a freshly composed Go
Decoder literal. -/
def initState : DState := {}

/-- The failures decoder.go can raise (panics caught by catchFailure),
plus the fuel-exhaustion marker of the embedding, which corresponds to no
Go behaviour and is proved unreachable on well-founded heaps. -/
inductive Err where
  | outOfFuel
  | badNodeRef
  | invalidDocument
  | cycleErr
  | excessiveAliasing
  | scalarDecodeErr
  | unexpectedType
  | unknownKind
  | notMaps
  | keyMarshalErr (s : String)
  | oddMapping
deriving DecidableEq

/-- Result of a decoder routine: either a value together with the decoder
state after it, or the error and the decoder state at the moment of the
panic. -/
abbrev Res (α : Type) := Except (Err × DState) (α × DState)

/-- The error of a result, if it is one. -/
def resErr {α : Type} : Res α → Option Err
  | .error (e, _) => some e
  | .ok _ => none

/-- The value of a result, if it succeeded. -/
def resVal {α : Type} : Res α → Option α
  | .error _ => none
  | .ok (v, _) => some v

/-- The decoder state a result carries (final state on success, state at
the panic on failure). -/
def resState {α : Type} : Res α → DState
  | .error (_, st) => st
  | .ok (_, st) => st

/-! Constants of decoder.go. -/

/-- 400,000 decode operations: below this total every ratio up to 0.99 is
allowed. -/
def aliasRatioRangeLow : Nat := 400000

/-- 4,000,000 decode operations: above this total only ratio 0.10 is
allowed. -/
def aliasRatioRangeHigh : Nat := 4000000

/-- The width of the scaling range. -/
def aliasRatioRange : ℚ := ((aliasRatioRangeHigh - aliasRatioRangeLow : Nat) : ℚ)

/-- The long form prefix of yaml tags. -/
def longTagPrefix : String := "tag:yaml.org,2002:"

/-- The short merge tag. -/
def mergeTag : String := "!!merge"

/-- shortTag of decoder.go: rewrite the long tag prefix to the two-bang
short form. -/
def shortTag (tag : String) : String :=
  if tag.startsWith longTagPrefix then "!!" ++ tag.drop longTagPrefix.length
  else tag

/-- isMerge of decoder.go: a scalar node whose literal text is the two
less-than signs and whose tag is empty, the generic untagged marker, or
the merge tag. -/
def isMerge (n : Node) : Bool :=
  n.Kind == .scalar && n.Value == "<<" &&
    (n.Tag == "" || n.Tag == "!" || shortTag n.Tag == mergeTag)

/-- allowedAliasRatio of decoder.go, computed exactly over the rationals:
0.99 up to the low end of the range, 0.10 from the high end on, and the
linear interpolation between them. -/
def allowedAliasRatio (decodeCount : Nat) : ℚ :=
  if decodeCount ≤ aliasRatioRangeLow then 99 / 100
  else if decodeCount ≥ aliasRatioRangeHigh then 10 / 100
  else 99 / 100 - (89 / 100) * (((decodeCount - aliasRatioRangeLow : Nat) : ℚ) / aliasRatioRange)

/-- The counter update at the head of jsonify: the total decode counter
always increments, the alias decode counter increments while the alias
nesting depth is positive. -/
def bump (st : DState) : DState :=
  { st with
    decodeCount := st.decodeCount + 1
    aliasCount := if 0 < st.aliasDepth then st.aliasCount + 1 else st.aliasCount }

/-- The expansion-ratio guard of jsonify, checked on every visit right
after the counters are bumped. -/
def guardB (st : DState) : Bool :=
  decide (100 < st.aliasCount) && decide (1000 < st.decodeCount) &&
    decide (allowedAliasRatio st.decodeCount < (st.aliasCount : ℚ) / (st.decodeCount : ℚ))

/-- jsonifyFloat of decoder.go: substitute a configured sentinel for the
matching non-finite float, otherwise return the float unchanged. -/
def jsonifyFloat (cfg : DecoderCfg) (f : GoFloat) : GoValue :=
  match cfg.NaN, f with
  | some v, .nan => v
  | _, _ =>
  match cfg.PosInf, f with
  | some v, .posInf => v
  | _, _ =>
  match cfg.NegInf, f with
  | some v, .negInf => v
  | _, _ => .floatv f

/-- jsonifyOther of decoder.go: reject decoded scalar values whose
reflected kind is map, array, slice or float32; everything else passes
through. -/
def jsonifyOther (v : GoValue) : Except Err GoValue :=
  match v with
  | .mapv _ => .error .unexpectedType
  | .seqv _ => .error .unexpectedType
  | .float32v _ => .error .unexpectedType
  | v => .ok v

/-- The tail of jsonifyKey of decoder.go, after the key node has been
converted: a string key is used directly; a value implementing
fmt.Stringer is rendered with its String method — of the value kinds the
converter can receive only time.Time, produced by the yaml library for
timestamp scalars, implements it — and only any other value is handed to
the caller-supplied KeyMarshal collaborator. -/
def jsonifyKeyV (cfg : DecoderCfg) (v : GoValue) : Except Err String :=
  match v with
  | .strv s => .ok s
  | .timev s => .ok s
  | v =>
    match cfg.KeyMarshal v with
    | .ok s => .ok s
    | .error e => .error (.keyMarshalErr e)

mutual

/-- jsonify of decoder.go: bump the counters, run the expansion-ratio
guard, then dispatch on the node kind. -/
def jsonify : Nat → Heap → DecoderCfg → DState → Nat → Res GoValue
  | 0, _, _, st, _ => .error (.outOfFuel, st)
  | fuel + 1, h, cfg, st, id =>
    let st1 := bump st
    if guardB st1 then .error (.excessiveAliasing, st1)
    else
      match h[id]? with
      | none => .error (.badNodeRef, st1)
      | some n =>
        match n.Kind with
        | .document =>
          match n.Content with
          | [c] => jsonify fuel h cfg { st1 with doc := some id } c
          | _ => .error (.invalidDocument, st1)
        | .aliasK =>
          if id ∈ st1.aliases then .error (.cycleErr, st1)
          else
            let st2 := { st1 with
              aliases := id :: st1.aliases
              aliasDepth := st1.aliasDepth + 1 }
            match jsonify fuel h cfg st2 n.Alias with
            | .error e => .error e
            | .ok (v, st3) =>
              .ok (v, { st3 with
                aliasDepth := st3.aliasDepth - 1
                aliases := st3.aliases.erase id })
        | .scalar =>
          match n.decoded with
          | none => .error (.scalarDecodeErr, st1)
          | some (.floatv f) => .ok (jsonifyFloat cfg f, st1)
          | some v =>
            match jsonifyOther v with
            | .ok w => .ok (w, st1)
            | .error e => .error (e, st1)
        | .mapping =>
          match jsonifyPairs fuel h cfg st1 [] n.Content with
          | .error e => .error e
          | .ok (m, st2) => .ok (.mapv m, st2)
        | .sequence =>
          match jsonifySeq fuel h cfg st1 n.Content with
          | .error e => .error e
          | .ok (l, st2) => .ok (.seqv l, st2)
        | .zeroK =>
          if n.isZero then .ok (.null, st1) else .error (.unknownKind, st1)
        | .unknown => .error (.unknownKind, st1)

/-- The loop of sequence of decoder.go: convert each child in order. -/
def jsonifySeq : Nat → Heap → DecoderCfg → DState → List Nat → Res (List GoValue)
  | _, _, _, st, [] => .ok ([], st)
  | 0, _, _, st, _ :: _ => .error (.outOfFuel, st)
  | fuel + 1, h, cfg, st, c :: cs =>
    match jsonify fuel h cfg st c with
    | .error e => .error e
    | .ok (v, st1) =>
      match jsonifySeq fuel h cfg st1 cs with
      | .error e => .error e
      | .ok (vs, st2) => .ok (v :: vs, st2)

/-- The loop of mapping of decoder.go: walk the flat content pairwise,
routing merge-marker keys through merge and appending converted pairs
(the key node is converted and marshalled before the value node). -/
def jsonifyPairs : Nat → Heap → DecoderCfg → DState → MapSlice → List Nat → Res MapSlice
  | _, _, _, st, m, [] => .ok (m, st)
  | 0, _, _, st, _, _ :: _ => .error (.outOfFuel, st)
  | _ + 1, _, _, st, _, [_] => .error (.oddMapping, st)
  | fuel + 1, h, cfg, st, m, k :: v :: rest =>
    match h[k]? with
    | none => .error (.badNodeRef, st)
    | some kn =>
      if isMerge kn then
        match mergeNode fuel h cfg st m v with
        | .error e => .error e
        | .ok (m1, st1) => jsonifyPairs fuel h cfg st1 m1 rest
      else
        match jsonify fuel h cfg st k with
        | .error e => .error e
        | .ok (kv, st1) =>
          match jsonifyKeyV cfg kv with
          | .error e => .error (e, st1)
          | .ok key =>
            match jsonify fuel h cfg st1 v with
            | .error e => .error e
            | .ok (vv, st2) =>
              jsonifyPairs fuel h cfg st2 (m ++ [(key, vv)]) rest

/-- The shared tail of both merge paths of decoder.go: convert the node,
require the conversion to be a MapSlice, and fold it into the accumulator
with Merge. -/
def mergeConvert : Nat → Heap → DecoderCfg → DState → MapSlice → Nat → Res MapSlice
  | 0, _, _, st, _, _ => .error (.outOfFuel, st)
  | fuel + 1, h, cfg, st, m, nid =>
    match jsonify fuel h cfg st nid with
    | .error e => .error e
    | .ok (.mapv m2, st1) => .ok (MapSlice.Merge m m2, st1)
    | .ok (_, st1) => .error (.notMaps, st1)

/-- The backwards loop of the sequence arm of merge of decoder.go.  Each
element is required to be a mapping or an alias to one, but the conversion
the loop folds in is jsonify of the whole sequence node nid, exactly as
the Go source writes d.jsonify(n) rather than d.jsonify(ni). -/
def mergeSeqRev : Nat → Heap → DecoderCfg → DState → MapSlice → Nat → List Nat → Res MapSlice
  | _, _, _, st, m, _, [] => .ok (m, st)
  | 0, _, _, st, _, _, _ :: _ => .error (.outOfFuel, st)
  | fuel + 1, h, cfg, st, m, nid, ni :: rest =>
    match h[ni]? with
    | none => .error (.badNodeRef, st)
    | some nin =>
      match nin.Kind with
      | .aliasK =>
        match h[nin.Alias]? with
        | some t =>
          if t.Kind ≠ .mapping then .error (.notMaps, st)
          else
            match mergeConvert fuel h cfg st m nid with
            | .error e => .error e
            | .ok (m1, st1) => mergeSeqRev fuel h cfg st1 m1 nid rest
        | none =>
          match mergeConvert fuel h cfg st m nid with
          | .error e => .error e
          | .ok (m1, st1) => mergeSeqRev fuel h cfg st1 m1 nid rest
      | .mapping =>
        match mergeConvert fuel h cfg st m nid with
        | .error e => .error e
        | .ok (m1, st1) => mergeSeqRev fuel h cfg st1 m1 nid rest
      | _ => .error (.notMaps, st)

/-- merge of decoder.go: dispatch on the kind of the merge value node.  An
alias whose target is not a mapping fails at once, otherwise it falls
through to the mapping arm; a sequence is walked back to front; any other
kind fails. -/
def mergeNode : Nat → Heap → DecoderCfg → DState → MapSlice → Nat → Res MapSlice
  | 0, _, _, st, _, _ => .error (.outOfFuel, st)
  | fuel + 1, h, cfg, st, m, nid =>
    match h[nid]? with
    | none => .error (.badNodeRef, st)
    | some n =>
      match n.Kind with
      | .aliasK =>
        match h[n.Alias]? with
        | some t =>
          if t.Kind ≠ .mapping then .error (.notMaps, st)
          else mergeConvert fuel h cfg st m nid
        | none => mergeConvert fuel h cfg st m nid
      | .mapping => mergeConvert fuel h cfg st m nid
      | .sequence => mergeSeqRev fuel h cfg st m nid n.Content.reverse
      | _ => .error (.notMaps, st)
termination_by structural fuel => fuel

end

@[simp] theorem bump_aliases (st : DState) : (bump st).aliases = st.aliases := rfl

@[simp] theorem bump_doc (st : DState) : (bump st).doc = st.doc := rfl

@[simp] theorem bump_decodeCount (st : DState) :
    (bump st).decodeCount = st.decodeCount + 1 := rfl

@[simp] theorem bump_aliasDepth (st : DState) : (bump st).aliasDepth = st.aliasDepth := rfl

theorem bump_aliasCount (st : DState) :
    (bump st).aliasCount = if 0 < st.aliasDepth then st.aliasCount + 1 else st.aliasCount := rfl

/-- The JSON method of decoder.go, after the external DecodeYAML
collaborator has produced the node tree: run jsonify on the root and let
catchFailure turn a panic into an error.  The Decoder state fields are
whatever they were when the method was invoked, and the state after the
call (mutated receiver) is returned alongside the result. -/
def JSON (fuel : Nat) (h : Heap) (cfg : DecoderCfg) (st : DState) (root : Nat) :
    Except Err GoValue × DState :=
  match jsonify fuel h cfg st root with
  | .ok (v, st1) => (.ok v, st1)
  | .error (e, st1) => (.error e, st1)


theorem aliases_ok : ∀ fuel : Nat,
    (∀ (h : Heap) (cfg : DecoderCfg) (st : DState) (id : Nat) (v : GoValue) (st' : DState),
      jsonify fuel h cfg st id = .ok (v, st') → st'.aliases = st.aliases) ∧
    (∀ (h : Heap) (cfg : DecoderCfg) (st : DState) (l : List Nat) (v : List GoValue) (st' : DState),
      jsonifySeq fuel h cfg st l = .ok (v, st') → st'.aliases = st.aliases) ∧
    (∀ (h : Heap) (cfg : DecoderCfg) (st : DState) (m : MapSlice) (l : List Nat) (v : MapSlice) (st' : DState),
      jsonifyPairs fuel h cfg st m l = .ok (v, st') → st'.aliases = st.aliases) ∧
    (∀ (h : Heap) (cfg : DecoderCfg) (st : DState) (m : MapSlice) (nid : Nat) (v : MapSlice) (st' : DState),
      mergeConvert fuel h cfg st m nid = .ok (v, st') → st'.aliases = st.aliases) ∧
    (∀ (h : Heap) (cfg : DecoderCfg) (st : DState) (m : MapSlice) (nid : Nat) (l : List Nat) (v : MapSlice) (st' : DState),
      mergeSeqRev fuel h cfg st m nid l = .ok (v, st') → st'.aliases = st.aliases) ∧
    (∀ (h : Heap) (cfg : DecoderCfg) (st : DState) (m : MapSlice) (nid : Nat) (v : MapSlice) (st' : DState),
      mergeNode fuel h cfg st m nid = .ok (v, st') → st'.aliases = st.aliases) := by
  intro fuel
  induction fuel with
  | zero =>
    refine ⟨?_, ?_, ?_, ?_, ?_, ?_⟩
    · intro h cfg st id v st' heq; simp [jsonify] at heq
    · intro h cfg st l v st' heq
      cases l with
      | nil => simp [jsonifySeq] at heq; exact heq.2 ▸ rfl
      | cons c cs => simp [jsonifySeq] at heq
    · intro h cfg st m l v st' heq
      cases l with
      | nil => simp [jsonifyPairs] at heq; exact heq.2 ▸ rfl
      | cons c cs => simp [jsonifyPairs] at heq
    · intro h cfg st m nid v st' heq; simp [mergeConvert] at heq
    · intro h cfg st m nid l v st' heq
      cases l with
      | nil => simp [mergeSeqRev] at heq; exact heq.2 ▸ rfl
      | cons c cs => simp [mergeSeqRev] at heq
    · intro h cfg st m nid v st' heq; simp [mergeNode] at heq
  | succ g ih =>
    obtain ⟨ihJ, ihS, ihP, ihC, ihR, ihN⟩ := ih
    refine ⟨?_, ?_, ?_, ?_, ?_, ?_⟩
    · intro h cfg st id v st' heq
      simp only [jsonify] at heq
      split at heq
      · cases heq
      · split at heq
        · cases heq
        · split at heq
          · -- document
            split at heq
            · exact (ihJ _ _ _ _ _ _ heq).trans rfl
            · cases heq
          · -- alias
            split at heq
            · cases heq
            · split at heq
              · cases heq
              · rename_i hres
                cases heq
                have := ihJ _ _ _ _ _ _ hres
                simp [this, List.erase_cons_head]
          · -- scalar
            split at heq
            · cases heq
            · cases heq; rfl
            · split at heq
              · cases heq; rfl
              · cases heq
          · -- mapping
            split at heq
            · cases heq
            · rename_i hp; cases heq; simpa using ihP _ _ _ _ _ _ _ hp
          · -- sequence
            split at heq
            · cases heq
            · rename_i hs; cases heq; simpa using ihS _ _ _ _ _ _ hs
          · -- zero
            split at heq
            · cases heq; rfl
            · cases heq
          · cases heq
    · intro h cfg st l v st' heq
      cases l with
      | nil => simp [jsonifySeq] at heq; exact heq.2 ▸ rfl
      | cons c cs =>
        simp only [jsonifySeq] at heq
        split at heq
        · cases heq
        · rename_i hj
          split at heq
          · cases heq
          · rename_i hs
            cases heq
            exact (ihS _ _ _ _ _ _ hs).trans (ihJ _ _ _ _ _ _ hj)
    · intro h cfg st m l v st' heq
      match l with
      | [] => simp [jsonifyPairs] at heq; exact heq.2 ▸ rfl
      | [k] => simp [jsonifyPairs] at heq
      | k :: vv :: rest =>
        simp only [jsonifyPairs] at heq
        split at heq
        · cases heq
        · split at heq
          · -- merge branch
            split at heq
            · cases heq
            · rename_i hm
              exact (ihP _ _ _ _ _ _ _ heq).trans (ihN _ _ _ _ _ _ _ hm)
          · split at heq
            · cases heq
            · rename_i hj1
              split at heq
              · cases heq
              · split at heq
                · cases heq
                · rename_i hj2
                  exact ((ihP _ _ _ _ _ _ _ heq).trans (ihJ _ _ _ _ _ _ hj2)).trans
                    (ihJ _ _ _ _ _ _ hj1)
    · intro h cfg st m nid v st' heq
      simp only [mergeConvert] at heq
      split at heq
      · cases heq
      · rename_i hj; cases heq; exact ihJ _ _ _ _ _ _ hj
      · cases heq
    · intro h cfg st m nid l v st' heq
      cases l with
      | nil => simp [mergeSeqRev] at heq; exact heq.2 ▸ rfl
      | cons c cs =>
        simp only [mergeSeqRev] at heq
        split at heq
        · cases heq
        · split at heq
          · split at heq
            · split at heq
              · cases heq
              · split at heq
                · cases heq
                · rename_i hc
                  exact (ihR _ _ _ _ _ _ _ _ heq).trans (ihC _ _ _ _ _ _ _ hc)
            · split at heq
              · cases heq
              · rename_i hc
                exact (ihR _ _ _ _ _ _ _ _ heq).trans (ihC _ _ _ _ _ _ _ hc)
          · split at heq
            · cases heq
            · rename_i hc
              exact (ihR _ _ _ _ _ _ _ _ heq).trans (ihC _ _ _ _ _ _ _ hc)
          · cases heq
    · intro h cfg st m nid v st' heq
      simp only [mergeNode] at heq
      split at heq
      · cases heq
      · split at heq
        · split at heq
          · split at heq
            · cases heq
            · exact ihC _ _ _ _ _ _ _ heq
          · exact ihC _ _ _ _ _ _ _ heq
        · exact ihC _ _ _ _ _ _ _ heq
        · exact ihR _ _ _ _ _ _ _ _ heq
        · cases heq



theorem jsonify_ok_aliases {fuel : Nat} {h : Heap} {cfg : DecoderCfg} {st : DState}
    {id : Nat} {v : GoValue} {st' : DState}
    (heq : jsonify fuel h cfg st id = .ok (v, st')) : st'.aliases = st.aliases :=
  (aliases_ok fuel).1 _ _ _ _ _ _ heq

theorem jsonifyPairs_ok_aliases {fuel : Nat} {h : Heap} {cfg : DecoderCfg} {st : DState}
    {m : MapSlice} {l : List Nat} {v : MapSlice} {st' : DState}
    (heq : jsonifyPairs fuel h cfg st m l = .ok (v, st')) : st'.aliases = st.aliases :=
  (aliases_ok fuel).2.2.1 _ _ _ _ _ _ _ heq

theorem mergeConvert_ok_aliases {fuel : Nat} {h : Heap} {cfg : DecoderCfg} {st : DState}
    {m : MapSlice} {nid : Nat} {v : MapSlice} {st' : DState}
    (heq : mergeConvert fuel h cfg st m nid = .ok (v, st')) : st'.aliases = st.aliases :=
  (aliases_ok fuel).2.2.2.1 _ _ _ _ _ _ _ heq

theorem mergeNode_ok_aliases {fuel : Nat} {h : Heap} {cfg : DecoderCfg} {st : DState}
    {m : MapSlice} {nid : Nat} {v : MapSlice} {st' : DState}
    (heq : mergeNode fuel h cfg st m nid = .ok (v, st')) : st'.aliases = st.aliases :=
  (aliases_ok fuel).2.2.2.2.2 _ _ _ _ _ _ _ heq

theorem aliases_err : ∀ fuel : Nat,
    (∀ (h : Heap) (cfg : DecoderCfg) (st : DState) (id : Nat) (e : Err) (st' : DState),
      jsonify fuel h cfg st id = .error (e, st') → st.aliases ⊆ st'.aliases) ∧
    (∀ (h : Heap) (cfg : DecoderCfg) (st : DState) (l : List Nat) (e : Err) (st' : DState),
      jsonifySeq fuel h cfg st l = .error (e, st') → st.aliases ⊆ st'.aliases) ∧
    (∀ (h : Heap) (cfg : DecoderCfg) (st : DState) (m : MapSlice) (l : List Nat) (e : Err) (st' : DState),
      jsonifyPairs fuel h cfg st m l = .error (e, st') → st.aliases ⊆ st'.aliases) ∧
    (∀ (h : Heap) (cfg : DecoderCfg) (st : DState) (m : MapSlice) (nid : Nat) (e : Err) (st' : DState),
      mergeConvert fuel h cfg st m nid = .error (e, st') → st.aliases ⊆ st'.aliases) ∧
    (∀ (h : Heap) (cfg : DecoderCfg) (st : DState) (m : MapSlice) (nid : Nat) (l : List Nat) (e : Err) (st' : DState),
      mergeSeqRev fuel h cfg st m nid l = .error (e, st') → st.aliases ⊆ st'.aliases) ∧
    (∀ (h : Heap) (cfg : DecoderCfg) (st : DState) (m : MapSlice) (nid : Nat) (e : Err) (st' : DState),
      mergeNode fuel h cfg st m nid = .error (e, st') → st.aliases ⊆ st'.aliases) := by
  intro fuel
  induction fuel with
  | zero =>
    refine ⟨?_, ?_, ?_, ?_, ?_, ?_⟩
    · intro h cfg st id e st' heq
      simp [jsonify] at heq; exact heq.2 ▸ List.Subset.refl _
    · intro h cfg st l e st' heq
      cases l with
      | nil => simp [jsonifySeq] at heq
      | cons c cs => simp [jsonifySeq] at heq; exact heq.2 ▸ List.Subset.refl _
    · intro h cfg st m l e st' heq
      cases l with
      | nil => simp [jsonifyPairs] at heq
      | cons c cs => simp [jsonifyPairs] at heq; exact heq.2 ▸ List.Subset.refl _
    · intro h cfg st m nid e st' heq
      simp [mergeConvert] at heq; exact heq.2 ▸ List.Subset.refl _
    · intro h cfg st m nid l e st' heq
      cases l with
      | nil => simp [mergeSeqRev] at heq
      | cons c cs => simp [mergeSeqRev] at heq; exact heq.2 ▸ List.Subset.refl _
    · intro h cfg st m nid e st' heq
      simp [mergeNode] at heq; exact heq.2 ▸ List.Subset.refl _
  | succ g ih =>
    obtain ⟨ihJ, ihS, ihP, ihC, ihR, ihN⟩ := ih
    have bsub : ∀ st : DState, st.aliases ⊆ (bump st).aliases :=
      fun st => List.Subset.refl _
    refine ⟨?_, ?_, ?_, ?_, ?_, ?_⟩
    · intro h cfg st id e st' heq
      simp only [jsonify] at heq
      split at heq
      · cases heq; exact bsub st
      · split at heq
        · cases heq; exact bsub st
        · split at heq
          · -- document
            split at heq
            · simpa using ihJ _ _ _ _ _ _ heq
            · cases heq; exact bsub st
          · -- alias
            split at heq
            · cases heq; exact bsub st
            · split at heq
              · rename_i hres
                cases heq
                have h1 := ihJ _ _ _ _ _ _ hres
                exact fun x hx => h1 (List.mem_cons_of_mem _ hx)
              · cases heq
          · -- scalar
            split at heq
            · cases heq; exact bsub st
            · cases heq
            · split at heq
              · cases heq
              · cases heq; exact bsub st
          · -- mapping
            split at heq
            · rename_i hp; cases heq; simpa using ihP _ _ _ _ _ _ _ hp
            · cases heq
          · -- sequence
            split at heq
            · rename_i hs; cases heq; simpa using ihS _ _ _ _ _ _ hs
            · cases heq
          · -- zero
            split at heq
            · cases heq
            · cases heq; exact bsub st
          · cases heq; exact bsub st
    · intro h cfg st l e st' heq
      cases l with
      | nil => simp [jsonifySeq] at heq
      | cons c cs =>
        simp only [jsonifySeq] at heq
        split at heq
        · rename_i hj; cases heq; exact ihJ _ _ _ _ _ _ hj
        · rename_i hj
          split at heq
          · rename_i hs; cases heq
            exact (jsonify_ok_aliases hj ▸ ihS _ _ _ _ _ _ hs)
          · cases heq
    · intro h cfg st m l e st' heq
      match l with
      | [] => simp [jsonifyPairs] at heq
      | [k] =>
        simp [jsonifyPairs] at heq; exact heq.2 ▸ List.Subset.refl _
      | k :: vv :: rest =>
        simp only [jsonifyPairs] at heq
        split at heq
        · cases heq; exact List.Subset.refl _
        · split at heq
          · split at heq
            · rename_i hm; cases heq; exact ihN _ _ _ _ _ _ _ hm
            · rename_i hm
              exact mergeNode_ok_aliases hm ▸ ihP _ _ _ _ _ _ _ heq
          · split at heq
            · rename_i hj; cases heq; exact ihJ _ _ _ _ _ _ hj
            · rename_i hj1
              split at heq
              · cases heq; exact (jsonify_ok_aliases hj1) ▸ List.Subset.refl _
              · split at heq
                · rename_i hj2; cases heq
                  exact jsonify_ok_aliases hj1 ▸ ihJ _ _ _ _ _ _ hj2
                · rename_i hj2
                  exact jsonify_ok_aliases hj1 ▸ jsonify_ok_aliases hj2 ▸
                    ihP _ _ _ _ _ _ _ heq
    · intro h cfg st m nid e st' heq
      simp only [mergeConvert] at heq
      split at heq
      · rename_i hj; cases heq; exact ihJ _ _ _ _ _ _ hj
      · cases heq
      · rename_i hj; cases heq; exact jsonify_ok_aliases hj ▸ List.Subset.refl _
    · intro h cfg st m nid l e st' heq
      cases l with
      | nil => simp [mergeSeqRev] at heq
      | cons c cs =>
        simp only [mergeSeqRev] at heq
        split at heq
        · cases heq; exact List.Subset.refl _
        · split at heq
          · split at heq
            · split at heq
              · cases heq; exact List.Subset.refl _
              · split at heq
                · rename_i hc; cases heq; exact ihC _ _ _ _ _ _ _ hc
                · rename_i hc
                  exact mergeConvert_ok_aliases hc ▸ ihR _ _ _ _ _ _ _ _ heq
            · split at heq
              · rename_i hc; cases heq; exact ihC _ _ _ _ _ _ _ hc
              · rename_i hc
                exact mergeConvert_ok_aliases hc ▸ ihR _ _ _ _ _ _ _ _ heq
          · split at heq
            · rename_i hc; cases heq; exact ihC _ _ _ _ _ _ _ hc
            · rename_i hc
              exact mergeConvert_ok_aliases hc ▸ ihR _ _ _ _ _ _ _ _ heq
          · cases heq; exact List.Subset.refl _
    · intro h cfg st m nid e st' heq
      simp only [mergeNode] at heq
      split at heq
      · cases heq; exact List.Subset.refl _
      · split at heq
        · split at heq
          · split at heq
            · cases heq; exact List.Subset.refl _
            · exact ihC _ _ _ _ _ _ _ heq
          · exact ihC _ _ _ _ _ _ _ heq
        · exact ihC _ _ _ _ _ _ _ heq
        · exact ihR _ _ _ _ _ _ _ _ heq
        · cases heq; exact List.Subset.refl _



theorem jsonifyOther_err {v : GoValue} {e : Err} (h : jsonifyOther v = .error e) :
    e = .unexpectedType := by
  cases v <;> simp_all [jsonifyOther]

theorem jsonifyKeyV_err {cfg : DecoderCfg} {v : GoValue} {e : Err}
    (h : jsonifyKeyV cfg v = .error e) : ∃ s, e = .keyMarshalErr s := by
  unfold jsonifyKeyV at h
  split at h
  · cases h
  · cases h
  · split at h
    · cases h
    · cases h; exact ⟨_, rfl⟩

theorem excessive_only_when_guard : ∀ fuel : Nat,
    (∀ (h : Heap) (cfg : DecoderCfg) (st : DState) (id : Nat) (st' : DState),
      jsonify fuel h cfg st id = .error (.excessiveAliasing, st') → guardB st' = true) ∧
    (∀ (h : Heap) (cfg : DecoderCfg) (st : DState) (l : List Nat) (st' : DState),
      jsonifySeq fuel h cfg st l = .error (.excessiveAliasing, st') → guardB st' = true) ∧
    (∀ (h : Heap) (cfg : DecoderCfg) (st : DState) (m : MapSlice) (l : List Nat) (st' : DState),
      jsonifyPairs fuel h cfg st m l = .error (.excessiveAliasing, st') → guardB st' = true) ∧
    (∀ (h : Heap) (cfg : DecoderCfg) (st : DState) (m : MapSlice) (nid : Nat) (st' : DState),
      mergeConvert fuel h cfg st m nid = .error (.excessiveAliasing, st') → guardB st' = true) ∧
    (∀ (h : Heap) (cfg : DecoderCfg) (st : DState) (m : MapSlice) (nid : Nat) (l : List Nat) (st' : DState),
      mergeSeqRev fuel h cfg st m nid l = .error (.excessiveAliasing, st') → guardB st' = true) ∧
    (∀ (h : Heap) (cfg : DecoderCfg) (st : DState) (m : MapSlice) (nid : Nat) (st' : DState),
      mergeNode fuel h cfg st m nid = .error (.excessiveAliasing, st') → guardB st' = true) := by
  intro fuel
  induction fuel with
  | zero =>
    refine ⟨?_, ?_, ?_, ?_, ?_, ?_⟩
    · intro h cfg st id st' heq; simp [jsonify] at heq
    · intro h cfg st l st' heq
      cases l with
      | nil => simp [jsonifySeq] at heq
      | cons c cs => simp [jsonifySeq] at heq
    · intro h cfg st m l st' heq
      cases l with
      | nil => simp [jsonifyPairs] at heq
      | cons c cs => simp [jsonifyPairs] at heq
    · intro h cfg st m nid st' heq; simp [mergeConvert] at heq
    · intro h cfg st m nid l st' heq
      cases l with
      | nil => simp [mergeSeqRev] at heq
      | cons c cs => simp [mergeSeqRev] at heq
    · intro h cfg st m nid st' heq; simp [mergeNode] at heq
  | succ g ih =>
    obtain ⟨ihJ, ihS, ihP, ihC, ihR, ihN⟩ := ih
    refine ⟨?_, ?_, ?_, ?_, ?_, ?_⟩
    · intro h cfg st id st' heq
      simp only [jsonify] at heq
      split at heq
      · rename_i hg; cases heq; exact hg
      · split at heq
        · cases heq
        · split at heq
          · split at heq
            · exact ihJ _ _ _ _ _ heq
            · cases heq
          · split at heq
            · cases heq
            · split at heq
              · rename_i hres; cases heq; exact ihJ _ _ _ _ _ hres
              · cases heq
          · split at heq
            · cases heq
            · cases heq
            · split at heq
              · cases heq
              · rename_i ho; cases heq
                exact absurd (jsonifyOther_err ho) (by decide)
          · split at heq
            · rename_i hp; cases heq; exact ihP _ _ _ _ _ _ hp
            · cases heq
          · split at heq
            · rename_i hs; cases heq; exact ihS _ _ _ _ _ hs
            · cases heq
          · split at heq
            · cases heq
            · cases heq
          · cases heq
    · intro h cfg st l st' heq
      cases l with
      | nil => simp [jsonifySeq] at heq
      | cons c cs =>
        simp only [jsonifySeq] at heq
        split at heq
        · rename_i hj; cases heq; exact ihJ _ _ _ _ _ hj
        · split at heq
          · rename_i hs; cases heq; exact ihS _ _ _ _ _ hs
          · cases heq
    · intro h cfg st m l st' heq
      match l with
      | [] => simp [jsonifyPairs] at heq
      | [k] => simp [jsonifyPairs] at heq
      | k :: vv :: rest =>
        simp only [jsonifyPairs] at heq
        split at heq
        · cases heq
        · split at heq
          · split at heq
            · rename_i hm; cases heq; exact ihN _ _ _ _ _ _ hm
            · exact ihP _ _ _ _ _ _ heq
          · split at heq
            · rename_i hj; cases heq; exact ihJ _ _ _ _ _ hj
            · split at heq
              · rename_i hkv; cases heq
                obtain ⟨s, hs⟩ := jsonifyKeyV_err hkv
                exact Err.noConfusion hs
              · split at heq
                · rename_i hj2; cases heq; exact ihJ _ _ _ _ _ hj2
                · exact ihP _ _ _ _ _ _ heq
    · intro h cfg st m nid st' heq
      simp only [mergeConvert] at heq
      split at heq
      · rename_i hj; cases heq; exact ihJ _ _ _ _ _ hj
      · cases heq
      · cases heq
    · intro h cfg st m nid l st' heq
      cases l with
      | nil => simp [mergeSeqRev] at heq
      | cons c cs =>
        simp only [mergeSeqRev] at heq
        split at heq
        · cases heq
        · split at heq
          · split at heq
            · split at heq
              · cases heq
              · split at heq
                · rename_i hc; cases heq; exact ihC _ _ _ _ _ _ hc
                · exact ihR _ _ _ _ _ _ _ heq
            · split at heq
              · rename_i hc; cases heq; exact ihC _ _ _ _ _ _ hc
              · exact ihR _ _ _ _ _ _ _ heq
          · split at heq
            · rename_i hc; cases heq; exact ihC _ _ _ _ _ _ hc
            · exact ihR _ _ _ _ _ _ _ heq
          · cases heq
    · intro h cfg st m nid st' heq
      simp only [mergeNode] at heq
      split at heq
      · cases heq
      · split at heq
        · split at heq
          · split at heq
            · cases heq
            · exact ihC _ _ _ _ _ _ heq
          · exact ihC _ _ _ _ _ _ heq
        · exact ihC _ _ _ _ _ _ heq
        · exact ihR _ _ _ _ _ _ _ heq
        · cases heq



/-- Rank of a node identifier under a finite rank table (zero beyond its
length). -/
def rnk (rl : List Nat) (i : Nat) : Nat := rl.getD i 0

/-- True when the identifier addresses an alias node of the heap. -/
def isAliasAt (h : Heap) (i : Nat) : Bool :=
  match h[i]? with
  | some n => n.Kind == .aliasK
  | none => false

/-- The number of alias nodes of the heap whose identity is not in the
in-progress set. -/
def aliasTodo (h : Heap) (al : List Nat) : Nat :=
  ((Finset.range h.length).filter (fun i => isAliasAt h i = true ∧ i ∉ al)).card

/-- A rank table witnessing that Content edges of the heap are
well-founded, with enough slack for the fuel bound: every content child
ranks below its parent by more than four times its own rank plus the
number of its siblings. -/
def WellRanked (h : Heap) (rl : List Nat) : Prop :=
  ∀ i ∈ List.range h.length, ∀ c ∈ (h.getD i {}).Content,
    4 * rnk rl c + (h.getD i {}).Content.length < rnk rl i

theorem rnk_le {rl : List Nat} {maxR : Nat} (hb : ∀ x ∈ rl, x ≤ maxR) (i : Nat) :
    rnk rl i ≤ maxR := by
  unfold rnk
  rw [List.getD_eq_getElem?_getD]
  cases hx : rl[i]? with
  | none => simp
  | some x => simpa using hb x (List.getElem?_mem hx)

theorem lt_length_of_lookup {h : Heap} {i : Nat} {n : Node} (hi : h[i]? = some n) :
    i < h.length := by
  by_contra hlt
  rw [List.getElem?_eq_none (by omega)] at hi
  cases hi

theorem getD_of_lookup {h : Heap} {i : Nat} {n : Node} (hi : h[i]? = some n) :
    h.getD i {} = n := by
  rw [List.getD_eq_getElem?_getD, hi]; rfl

theorem wellRanked_spec {h : Heap} {rl : List Nat} (hw : WellRanked h rl)
    {i : Nat} {n : Node} (hi : h[i]? = some n) {c : Nat} (hc : c ∈ n.Content) :
    4 * rnk rl c + n.Content.length < rnk rl i := by
  have h1 := hw i (List.mem_range.2 (lt_length_of_lookup hi)) c
  rw [getD_of_lookup hi] at h1
  exact h1 hc

theorem content_len_le {h : Heap} {rl : List Nat} (hw : WellRanked h rl)
    {i : Nat} {n : Node} (hi : h[i]? = some n) :
    n.Content.length ≤ rnk rl i := by
  cases hcl : n.Content with
  | nil => simp
  | cons c cs =>
    have h2 := wellRanked_spec hw hi (c := c) (by rw [hcl]; exact List.mem_cons_self c cs)
    rw [hcl] at h2
    omega

theorem aliasTodo_cons {h : Heap} {al : List Nat} {id : Nat}
    (hlen : id < h.length) (ha : isAliasAt h id = true) (hnm : id ∉ al) :
    aliasTodo h al = aliasTodo h (id :: al) + 1 := by
  unfold aliasTodo
  have hmem : id ∈ (Finset.range h.length).filter
      (fun i => isAliasAt h i = true ∧ i ∉ al) := by
    simp [Finset.mem_filter, Finset.mem_range, hlen, ha, hnm]
  have hset : (Finset.range h.length).filter
        (fun i => isAliasAt h i = true ∧ i ∉ (id :: al)) =
      ((Finset.range h.length).filter
        (fun i => isAliasAt h i = true ∧ i ∉ al)).erase id := by
    ext j
    simp only [Finset.mem_filter, Finset.mem_erase, Finset.mem_range, List.mem_cons]
    constructor
    · rintro ⟨hj, haj, hnj⟩
      push_neg at hnj
      exact ⟨hnj.1, hj, haj, hnj.2⟩
    · rintro ⟨hne, hj, haj, hnj⟩
      refine ⟨hj, haj, ?_⟩
      push_neg
      exact ⟨hne, hnj⟩
  rw [hset, Finset.card_erase_of_mem hmem]
  have : 0 < ((Finset.range h.length).filter
      (fun i => isAliasAt h i = true ∧ i ∉ al)).card :=
    Finset.card_pos.2 ⟨id, hmem⟩
  omega



theorem no_fuel_exhaustion (h : Heap) (cfg : DecoderCfg) (rl : List Nat) (maxR : Nat)
    (hw : WellRanked h rl) (hbnd : ∀ x ∈ rl, x ≤ maxR) : ∀ fuel : Nat,
    (∀ (st : DState) (id : Nat),
      3 * rnk rl id + 8 + aliasTodo h st.aliases * (4 * maxR + 13) ≤ fuel →
      resErr (jsonify fuel h cfg st id) ≠ some .outOfFuel) ∧
    (∀ (st : DState) (l : List Nat),
      (∀ c ∈ l, l.length + 3 * rnk rl c + 9 + aliasTodo h st.aliases * (4 * maxR + 13) ≤ fuel) →
      resErr (jsonifySeq fuel h cfg st l) ≠ some .outOfFuel) ∧
    (∀ (st : DState) (m : MapSlice) (l : List Nat),
      (∀ c ∈ l, l.length + 4 * rnk rl c + 12 + aliasTodo h st.aliases * (4 * maxR + 13) ≤ fuel) →
      resErr (jsonifyPairs fuel h cfg st m l) ≠ some .outOfFuel) ∧
    (∀ (st : DState) (m : MapSlice) (nid : Nat),
      3 * rnk rl nid + 10 + aliasTodo h st.aliases * (4 * maxR + 13) ≤ fuel →
      resErr (mergeConvert fuel h cfg st m nid) ≠ some .outOfFuel) ∧
    (∀ (st : DState) (m : MapSlice) (nid : Nat) (l : List Nat),
      l.length + 3 * rnk rl nid + 11 + aliasTodo h st.aliases * (4 * maxR + 13) ≤ fuel →
      resErr (mergeSeqRev fuel h cfg st m nid l) ≠ some .outOfFuel) ∧
    (∀ (st : DState) (m : MapSlice) (nid : Nat),
      4 * rnk rl nid + 12 + aliasTodo h st.aliases * (4 * maxR + 13) ≤ fuel →
      resErr (mergeNode fuel h cfg st m nid) ≠ some .outOfFuel) := by
  intro fuel
  induction fuel with
  | zero =>
    refine ⟨?_, ?_, ?_, ?_, ?_, ?_⟩
    · intro st id hb; omega
    · intro st l hb
      cases l with
      | nil => simp [jsonifySeq, resErr]
      | cons c cs => have := hb c (List.mem_cons_self c cs); omega
    · intro st m l hb
      cases l with
      | nil => simp [jsonifyPairs, resErr]
      | cons c cs => have := hb c (List.mem_cons_self c cs); omega
    · intro st m nid hb; omega
    · intro st m nid l hb; omega
    · intro st m nid hb; omega
  | succ g ih =>
    obtain ⟨ihJ, ihS, ihP, ihC, ihR, ihN⟩ := ih
    refine ⟨?_, ?_, ?_, ?_, ?_, ?_⟩
    · -- jsonify
      intro st id hb
      simp only [jsonify]
      split
      · simp [resErr]
      · split
        · simp [resErr]
        · rename_i hguard x n hn
          split
          · -- document
            rename_i hkind
            split
            · rename_i c hcont
              have hmem : c ∈ n.Content := by rw [hcont]; exact List.mem_cons_self c []
              have h4 := wellRanked_spec hw hn hmem
              rw [hcont] at h4
              simp only [List.length_cons, List.length_nil] at h4
              refine ihJ _ _ ?_
              show 3 * rnk rl c + 8 + aliasTodo h st.aliases * (4 * maxR + 13) ≤ g
              omega
            · simp [resErr]
          · -- alias
            rename_i hkind
            split
            · simp [resErr]
            · rename_i hnm
              have hlen := lt_length_of_lookup hn
              have halias : isAliasAt h id = true := by simp [isAliasAt, hn, hkind]
              have hnm2 : id ∉ st.aliases := hnm
              have htodo := aliasTodo_cons hlen halias hnm2
              have hmul : (aliasTodo h (id :: st.aliases) + 1) * (4 * maxR + 13) =
                  aliasTodo h (id :: st.aliases) * (4 * maxR + 13) + (4 * maxR + 13) := by
                ring
              have hr := rnk_le hbnd n.Alias
              rw [htodo] at hb
              cases hres : jsonify g h cfg
                  { bump st with
                    aliases := id :: (bump st).aliases
                    aliasDepth := (bump st).aliasDepth + 1 } n.Alias with
              | error e =>
                have hih := ihJ { bump st with
                    aliases := id :: (bump st).aliases
                    aliasDepth := (bump st).aliasDepth + 1 } n.Alias (by
                  show 3 * rnk rl n.Alias + 8 +
                    aliasTodo h (id :: st.aliases) * (4 * maxR + 13) ≤ g
                  omega)
                rw [hres] at hih
                exact hih
              | ok p =>
                obtain ⟨v, st3⟩ := p
                simp [resErr]
          · -- scalar
            split
            · simp [resErr]
            · simp [resErr]
            · split
              · simp [resErr]
              · rename_i ho
                have hot := jsonifyOther_err ho
                simp [resErr, hot]
          · -- mapping
            rename_i hkind
            cases hres : jsonifyPairs g h cfg (bump st) [] n.Content with
            | error e =>
              have hih := ihP (bump st) [] n.Content (by
                intro c hc
                have h4 := wellRanked_spec hw hn hc
                have hmemlen : 0 < n.Content.length := List.length_pos.2 (by
                  intro hemp; rw [hemp] at hc; cases hc)
                simp only [bump_aliases]
                omega)
              rw [hres] at hih
              exact hih
            | ok p => obtain ⟨mm, st2⟩ := p; simp [resErr]
          · -- sequence
            rename_i hkind
            cases hres : jsonifySeq g h cfg (bump st) n.Content with
            | error e =>
              have hih := ihS (bump st) n.Content (by
                intro c hc
                have h4 := wellRanked_spec hw hn hc
                have hmemlen : 0 < n.Content.length := List.length_pos.2 (by
                  intro hemp; rw [hemp] at hc; cases hc)
                simp only [bump_aliases]
                omega)
              rw [hres] at hih
              exact hih
            | ok p => obtain ⟨ll, st2⟩ := p; simp [resErr]
          · -- zero
            split
            · simp [resErr]
            · simp [resErr]
          · simp [resErr]
    · -- jsonifySeq
      intro st l hb
      cases l with
      | nil => simp [jsonifySeq, resErr]
      | cons c cs =>
        simp only [jsonifySeq]
        simp only [List.length_cons] at hb
        cases hres : jsonify g h cfg st c with
        | error e =>
          have hih := ihJ st c (by have := hb c (List.mem_cons_self c cs); omega)
          rw [hres] at hih
          exact hih
        | ok p =>
          obtain ⟨v, st1⟩ := p
          dsimp only
          cases hres2 : jsonifySeq g h cfg st1 cs with
          | error e =>
            have hih := ihS st1 cs (by
              intro c2 hc2
              rw [jsonify_ok_aliases hres]
              have := hb c2 (List.mem_cons_of_mem c hc2)
              omega)
            rw [hres2] at hih
            exact hih
          | ok p2 => obtain ⟨vs, st2⟩ := p2; simp [resErr]
    · -- jsonifyPairs
      intro st m l hb
      match l with
      | [] => simp [jsonifyPairs, resErr]
      | [k] => simp [jsonifyPairs, resErr]
      | k :: vv :: rest =>
        simp only [jsonifyPairs]
        simp only [List.length_cons] at hb
        split
        · simp [resErr]
        · split
          · -- merge branch
            cases hres : mergeNode g h cfg st m vv with
            | error e =>
              have hih := ihN st m vv (by
                have := hb vv (List.mem_cons_of_mem k (List.mem_cons_self vv rest))
                omega)
              rw [hres] at hih
              exact hih
            | ok p =>
              obtain ⟨m1, st1⟩ := p
              dsimp only
              have hih := ihP st1 m1 rest (by
                intro c2 hc2
                rw [mergeNode_ok_aliases hres]
                have := hb c2 (List.mem_cons_of_mem k (List.mem_cons_of_mem vv hc2))
                omega)
              exact hih
          · -- plain pair
            cases hres : jsonify g h cfg st k with
            | error e =>
              have hih := ihJ st k (by have := hb k (List.mem_cons_self k _); omega)
              rw [hres] at hih
              exact hih
            | ok p =>
              obtain ⟨kv, st1⟩ := p
              dsimp only
              split
              · rename_i hkv
                obtain ⟨s, hs⟩ := jsonifyKeyV_err hkv
                simp [resErr, hs]
              · rename_i key hkey
                cases hres2 : jsonify g h cfg st1 vv with
                | error e =>
                  have hih := ihJ st1 vv (by
                    rw [jsonify_ok_aliases hres]
                    have := hb vv (List.mem_cons_of_mem k (List.mem_cons_self vv rest))
                    omega)
                  rw [hres2] at hih
                  exact hih
                | ok p2 =>
                  obtain ⟨vvv, st2⟩ := p2
                  dsimp only
                  have hih := ihP st2 (m ++ [(key, vvv)]) rest (by
                    intro c2 hc2
                    rw [jsonify_ok_aliases hres2, jsonify_ok_aliases hres]
                    have := hb c2 (List.mem_cons_of_mem k (List.mem_cons_of_mem vv hc2))
                    omega)
                  exact hih
    · -- mergeConvert
      intro st m nid hb
      simp only [mergeConvert]
      cases hres : jsonify g h cfg st nid with
      | error e =>
        have hih := ihJ st nid (by omega)
        rw [hres] at hih
        exact hih
      | ok p =>
        obtain ⟨v, st1⟩ := p
        cases v <;> simp [resErr]
    · -- mergeSeqRev
      intro st m nid l hb
      cases l with
      | nil => simp [mergeSeqRev, resErr]
      | cons c cs =>
        simp only [mergeSeqRev]
        simp only [List.length_cons] at hb
        have hconv : ∀ (st0 : DState) (m0 : MapSlice), st0.aliases = st.aliases →
            resErr (match mergeConvert g h cfg st0 m0 nid with
              | .error e => .error e
              | .ok (m1, st1) => mergeSeqRev g h cfg st1 m1 nid cs) ≠ some .outOfFuel := by
          intro st0 m0 hal
          cases hres : mergeConvert g h cfg st0 m0 nid with
          | error e =>
            have hih := ihC st0 m0 nid (by rw [hal]; omega)
            rw [hres] at hih
            exact hih
          | ok p =>
            obtain ⟨m1, st1⟩ := p
            have hih := ihR st1 m1 nid cs (by
              rw [mergeConvert_ok_aliases hres, hal]
              omega)
            exact hih
        split
        · simp [resErr]
        · split
          · split
            · split
              · simp [resErr]
              · exact hconv st m rfl
            · exact hconv st m rfl
          · exact hconv st m rfl
          · simp [resErr]
    · -- mergeNode
      intro st m nid hb
      simp only [mergeNode]
      split
      · simp [resErr]
      · rename_i n hn
        split
        · split
          · split
            · simp [resErr]
            · exact ihC st m nid (by omega)
          · exact ihC st m nid (by omega)
        · exact ihC st m nid (by omega)
        · rename_i hkind
          refine ihR st m nid n.Content.reverse (by
            have hlen := content_len_le hw hn
            rw [List.length_reverse]
            omega)
        · simp [resErr]



mutual

/-- True when a raw non-finite float occurs anywhere in the value graph. -/
def hasNF : GoValue → Bool
  | .floatv .nan => true
  | .floatv .posInf => true
  | .floatv .negInf => true
  | .seqv l => hasNFList l
  | .mapv m => hasNFPairs m
  | _ => false

/-- hasNF over a list of values. -/
def hasNFList : List GoValue → Bool
  | [] => false
  | v :: vs => hasNF v || hasNFList vs

/-- hasNF over the values of a MapSlice. -/
def hasNFPairs : List (String × GoValue) → Bool
  | [] => false
  | kv :: rest => hasNF kv.2 || hasNFPairs rest

end

theorem hasNFPairs_append (a b : MapSlice) :
    hasNFPairs (a ++ b) = (hasNFPairs a || hasNFPairs b) := by
  induction a with
  | nil => simp [hasNFPairs]
  | cons kv rest ih => simp [hasNFPairs, ih, Bool.or_assoc]

theorem hasNFPairs_filter (m : MapSlice) (p : String × GoValue → Bool)
    (hm : hasNFPairs m = false) : hasNFPairs (m.filter p) = false := by
  induction m with
  | nil => simp [hasNFPairs]
  | cons kv rest ih =>
    simp only [hasNFPairs, Bool.or_eq_false_iff] at hm
    rw [List.filter_cons]
    split
    · simp [hasNFPairs, hm.1, ih hm.2]
    · exact ih hm.2

theorem Merge_clean {m ms : MapSlice} (hm : hasNFPairs m = false)
    (hms : hasNFPairs ms = false) : hasNFPairs (MapSlice.Merge m ms) = false := by
  unfold MapSlice.Merge
  rw [hasNFPairs_append, hm, hasNFPairs_filter ms _ hms]
  rfl

theorem jsonifyFloat_clean {cfg : DecoderCfg}
    (hnan : cfg.NaN ≠ none) (hpos : cfg.PosInf ≠ none) (hneg : cfg.NegInf ≠ none)
    (hnanc : ∀ v, cfg.NaN = some v → hasNF v = false)
    (hposc : ∀ v, cfg.PosInf = some v → hasNF v = false)
    (hnegc : ∀ v, cfg.NegInf = some v → hasNF v = false) (f : GoFloat) :
    hasNF (jsonifyFloat cfg f) = false := by
  cases f <;> cases hN : cfg.NaN <;> cases hP : cfg.PosInf <;> cases hG : cfg.NegInf <;>
    simp_all [jsonifyFloat, hasNF]


theorem no_nonfinite (h : Heap) (cfg : DecoderCfg)
    (hnan : cfg.NaN ≠ none) (hpos : cfg.PosInf ≠ none) (hneg : cfg.NegInf ≠ none)
    (hnanc : ∀ v, cfg.NaN = some v → hasNF v = false)
    (hposc : ∀ v, cfg.PosInf = some v → hasNF v = false)
    (hnegc : ∀ v, cfg.NegInf = some v → hasNF v = false) : ∀ fuel : Nat,
    (∀ (st : DState) (id : Nat) (v : GoValue) (st' : DState),
      jsonify fuel h cfg st id = .ok (v, st') → hasNF v = false) ∧
    (∀ (st : DState) (l : List Nat) (vs : List GoValue) (st' : DState),
      jsonifySeq fuel h cfg st l = .ok (vs, st') → hasNFList vs = false) ∧
    (∀ (st : DState) (m : MapSlice) (l : List Nat) (m' : MapSlice) (st' : DState),
      hasNFPairs m = false →
      jsonifyPairs fuel h cfg st m l = .ok (m', st') → hasNFPairs m' = false) ∧
    (∀ (st : DState) (m : MapSlice) (nid : Nat) (m' : MapSlice) (st' : DState),
      hasNFPairs m = false →
      mergeConvert fuel h cfg st m nid = .ok (m', st') → hasNFPairs m' = false) ∧
    (∀ (st : DState) (m : MapSlice) (nid : Nat) (l : List Nat) (m' : MapSlice) (st' : DState),
      hasNFPairs m = false →
      mergeSeqRev fuel h cfg st m nid l = .ok (m', st') → hasNFPairs m' = false) ∧
    (∀ (st : DState) (m : MapSlice) (nid : Nat) (m' : MapSlice) (st' : DState),
      hasNFPairs m = false →
      mergeNode fuel h cfg st m nid = .ok (m', st') → hasNFPairs m' = false) := by
  intro fuel
  induction fuel with
  | zero =>
    refine ⟨?_, ?_, ?_, ?_, ?_, ?_⟩
    · intro st id v st' heq; simp [jsonify] at heq
    · intro st l vs st' heq
      cases l with
      | nil => simp [jsonifySeq] at heq; rw [heq.1]; rfl
      | cons c cs => simp [jsonifySeq] at heq
    · intro st m l m' st' hm heq
      cases l with
      | nil => simp [jsonifyPairs] at heq; rw [← heq.1]; exact hm
      | cons c cs => simp [jsonifyPairs] at heq
    · intro st m nid m' st' hm heq; simp [mergeConvert] at heq
    · intro st m nid l m' st' hm heq
      cases l with
      | nil => simp [mergeSeqRev] at heq; rw [← heq.1]; exact hm
      | cons c cs => simp [mergeSeqRev] at heq
    · intro st m nid m' st' hm heq; simp [mergeNode] at heq
  | succ g ih =>
    obtain ⟨ihJ, ihS, ihP, ihC, ihR, ihN⟩ := ih
    refine ⟨?_, ?_, ?_, ?_, ?_, ?_⟩
    · intro st id v st' heq
      simp only [jsonify] at heq
      split at heq
      · cases heq
      · split at heq
        · cases heq
        · split at heq
          · -- document
            split at heq
            · exact ihJ _ _ _ _ heq
            · cases heq
          · -- alias
            split at heq
            · cases heq
            · split at heq
              · cases heq
              · rename_i hres
                cases heq
                exact ihJ _ _ _ _ hres
          · -- scalar
            split at heq
            · cases heq
            · cases heq
              exact jsonifyFloat_clean hnan hpos hneg hnanc hposc hnegc _
            · rename_i w hvna hd
              split at heq
              · rename_i ho
                cases heq
                unfold jsonifyOther at ho
                cases w with
                | floatv f => exact absurd rfl (hvna f)
                | mapv mm => cases ho
                | seqv ll => cases ho
                | float32v q => cases ho
                | null => cases ho; rfl
                | boolv b => cases ho; rfl
                | intv i => cases ho; rfl
                | strv s => cases ho; rfl
                | nilFloatPtr => cases ho; rfl
                | timev s => cases ho; rfl
              · cases heq
          · -- mapping
            split at heq
            · cases heq
            · rename_i hp
              cases heq
              exact ihP _ [] _ _ _ rfl hp
          · -- sequence
            split at heq
            · cases heq
            · rename_i hs
              cases heq
              exact ihS _ _ _ _ hs
          · -- zero
            split at heq
            · cases heq; rfl
            · cases heq
          · cases heq
    · intro st l vs st' heq
      cases l with
      | nil =>
        simp [jsonifySeq] at heq; rw [heq.1]; rfl
      | cons c cs =>
        simp only [jsonifySeq] at heq
        split at heq
        · cases heq
        · rename_i hj
          split at heq
          · cases heq
          · rename_i hs
            cases heq
            show (hasNF _ || hasNFList _) = false
            rw [ihJ _ _ _ _ hj, ihS _ _ _ _ hs]
            rfl
    · intro st m l m' st' hm heq
      match l with
      | [] => simp [jsonifyPairs] at heq; rw [← heq.1]; exact hm
      | [k] => simp [jsonifyPairs] at heq
      | k :: vv :: rest =>
        simp only [jsonifyPairs] at heq
        split at heq
        · cases heq
        · split at heq
          · split at heq
            · cases heq
            · rename_i hmn
              exact ihP _ _ _ _ _ (ihN _ _ _ _ _ hm hmn) heq
          · split at heq
            · cases heq
            · rename_i hj1
              split at heq
              · cases heq
              · split at heq
                · cases heq
                · rename_i hj2
                  refine ihP _ _ _ _ _ ?_ heq
                  rw [hasNFPairs_append, hm]
                  show (false || (hasNF _ || hasNFPairs [])) = false
                  rw [ihJ _ _ _ _ hj2]
                  rfl
    · intro st m nid m' st' hm heq
      simp only [mergeConvert] at heq
      split at heq
      · cases heq
      · rename_i m2 st1 hj
        cases heq
        have h2 : hasNFPairs m2 = false := ihJ _ _ _ _ hj
        exact Merge_clean hm h2
      · cases heq
    · intro st m nid l m' st' hm heq
      cases l with
      | nil => simp [mergeSeqRev] at heq; rw [← heq.1]; exact hm
      | cons c cs =>
        simp only [mergeSeqRev] at heq
        split at heq
        · cases heq
        · split at heq
          · split at heq
            · split at heq
              · cases heq
              · split at heq
                · cases heq
                · rename_i hc
                  exact ihR _ _ _ _ _ _ (ihC _ _ _ _ _ hm hc) heq
            · split at heq
              · cases heq
              · rename_i hc
                exact ihR _ _ _ _ _ _ (ihC _ _ _ _ _ hm hc) heq
          · split at heq
            · cases heq
            · rename_i hc
              exact ihR _ _ _ _ _ _ (ihC _ _ _ _ _ hm hc) heq
          · cases heq
    · intro st m nid m' st' hm heq
      simp only [mergeNode] at heq
      split at heq
      · cases heq
      · split at heq
        · split at heq
          · split at heq
            · cases heq
            · exact ihC _ _ _ _ _ hm heq
          · exact ihC _ _ _ _ _ hm heq
        · exact ihC _ _ _ _ _ hm heq
        · exact ihR _ _ _ _ _ _ hm heq
        · cases heq



/-- The guard condition of jsonify as a proposition: more than 100 alias
decodes, more than 1000 total decodes, and an observed alias ratio above
the allowed threshold for the current total. -/
def guardCond (st : DState) : Prop :=
  100 < st.aliasCount ∧ 1000 < st.decodeCount ∧
    allowedAliasRatio st.decodeCount < (st.aliasCount : ℚ) / (st.decodeCount : ℚ)

instance (st : DState) : Decidable (guardCond st) := by
  unfold guardCond; infer_instance

theorem guardB_iff (st : DState) : guardB st = true ↔ guardCond st := by
  simp [guardB, guardCond, and_assoc]

/-- The threshold function exactly as the specification words it: 0.99 up
to total 400000, 0.10 from total 4000000 on, and the linear interpolation
0.99 - 0.89 * (total - 400000) / 3600000 in between. -/
def specAllowedRatio (n : Nat) : ℚ :=
  if n ≤ 400000 then 99 / 100
  else if 4000000 ≤ n then 1 / 10
  else 99 / 100 - (89 / 100) * (((n : ℚ) - 400000) / 3600000)

theorem allowedAliasRatio_eq_spec (n : Nat) : allowedAliasRatio n = specAllowedRatio n := by
  unfold allowedAliasRatio specAllowedRatio aliasRatioRange
      aliasRatioRangeLow aliasRatioRangeHigh
  by_cases h1 : n ≤ 400000
  · simp [h1]
  · by_cases h2 : 4000000 ≤ n
    · simp [h1, h2]
      norm_num
    · simp only [h1, h2, ge_iff_le, if_false, if_neg]
      have hc : ((n - 400000 : Nat) : ℚ) = (n : ℚ) - 400000 := by
        push_cast [Nat.cast_sub (by omega : 400000 ≤ n)]
        ring
      rw [hc]
      norm_num



/-! Concrete fixtures used by the claim theorems and witnesses. -/

/-- A decoder configuration with no sentinels and a key marshaller that
renders booleans, as in the non-string-key example of the spec. -/
def cfg0 : DecoderCfg :=
  { KeyMarshal := fun v =>
      match v with
      | .boolv true => .ok "true"
      | .boolv false => .ok "false"
      | _ => .error "unsupported key" }

/-- Heap for the sequence-merge example of the spec: the enclosing map is
empty apart from the merge entry, and the merge value is the sequence
holding m1 with x mapped to 1 and m2 with x mapped to 2 and y to 3. -/
def seqMergeHeap : Heap := [
  { Kind := .mapping, Content := [1, 2], isZero := false },
  { Kind := .scalar, Value := "<<", decoded := some (.strv "<<"), isZero := false },
  { Kind := .sequence, Content := [3, 6], isZero := false },
  { Kind := .mapping, Content := [4, 5], isZero := false },
  { Kind := .scalar, Value := "x", decoded := some (.strv "x"), isZero := false },
  { Kind := .scalar, Value := "1", decoded := some (.intv 1), isZero := false },
  { Kind := .mapping, Content := [7, 8, 9, 10], isZero := false },
  { Kind := .scalar, Value := "x", decoded := some (.strv "x"), isZero := false },
  { Kind := .scalar, Value := "2", decoded := some (.intv 2), isZero := false },
  { Kind := .scalar, Value := "y", decoded := some (.strv "y"), isZero := false },
  { Kind := .scalar, Value := "3", decoded := some (.intv 3), isZero := false }
]

/-- Heap for the single-mapping merge example of the spec: a mapping with
the explicit entry a mapped to 1 followed by a merge entry whose value is
the mapping with a mapped to 2 and b to 3. -/
def mapMergeHeap : Heap := [
  { Kind := .mapping, Content := [1, 2, 3, 4], isZero := false },
  { Kind := .scalar, Value := "a", decoded := some (.strv "a"), isZero := false },
  { Kind := .scalar, Value := "1", decoded := some (.intv 1), isZero := false },
  { Kind := .scalar, Value := "<<", decoded := some (.strv "<<"), isZero := false },
  { Kind := .mapping, Content := [5, 6, 7, 8], isZero := false },
  { Kind := .scalar, Value := "a", decoded := some (.strv "a"), isZero := false },
  { Kind := .scalar, Value := "2", decoded := some (.intv 2), isZero := false },
  { Kind := .scalar, Value := "b", decoded := some (.strv "b"), isZero := false },
  { Kind := .scalar, Value := "3", decoded := some (.intv 3), isZero := false }
]

/-- Heap whose root is an alias to a malformed document node: converting
it fails inside the alias expansion, leaving the alias identity in the
in-progress set of the decoder state. -/
def leakHeap : Heap := [
  { Kind := .aliasK, Alias := 1, isZero := false },
  { Kind := .document, Content := [2, 3], isZero := false },
  { Kind := .scalar, decoded := some (.intv 1), isZero := false },
  { Kind := .scalar, decoded := some (.intv 2), isZero := false }
]

/-- Heap with a direct alias cycle: node 1 aliases node 2 whose content
holds node 1 again. -/
def cycleHeap : Heap := [
  { Kind := .document, Content := [1], isZero := false },
  { Kind := .aliasK, Alias := 2, isZero := false },
  { Kind := .sequence, Content := [1], isZero := false }
]

/-- Rank table for cycleHeap. -/
def cycleRanks : List Nat := [2, 0, 2]

/-- Heap whose sequence root holds a failing scalar before a cyclic
alias: the conversion dies on the scalar before ever reaching the cycle. -/
def preemptHeap : Heap := [
  { Kind := .sequence, Content := [1, 2], isZero := false },
  { Kind := .scalar, decoded := none, isZero := false },
  { Kind := .aliasK, Alias := 3, isZero := false },
  { Kind := .sequence, Content := [2], isZero := false }
]

/-- Heap with a single-pair mapping whose key decodes to the boolean
true. -/
def boolKeyHeap : Heap := [
  { Kind := .mapping, Content := [1, 2], isZero := false },
  { Kind := .scalar, Value := "true", decoded := some (.boolv true), isZero := false },
  { Kind := .scalar, Value := "1", decoded := some (.intv 1), isZero := false }
]

/-- Heap with a document wrapping a NaN scalar. -/
def nanHeap : Heap := [
  { Kind := .document, Content := [1], isZero := false },
  { Kind := .scalar, Value := ".nan", Tag := "!!float",
    decoded := some (.floatv .nan), isZero := false }
]

/-- The mathematical value of the Go constant math.MaxFloat64. -/
def maxFloat64 : ℚ := (2 ^ 53 - 1) * 2 ^ 971

/-- The Decoder literal that Unmarshal of json.go composes: the NaN
sentinel is the typed nil float pointer (non-nil as an interface value),
the infinity sentinels are plus and minus math.MaxFloat64, and KeyMarshal
is left unset (the nil Go function). -/
def unmarshalCfg : DecoderCfg :=
  { KeyMarshal := fun _ => .error "nil KeyMarshal function"
    NaN := some .nilFloatPtr
    PosInf := some (.floatv (.finite maxFloat64))
    NegInf := some (.floatv (.finite (-maxFloat64))) }



/-- C2: a node visit fails with the excessive-aliasing error exactly when,
after the visit increments the total decode counter (and the alias decode
counter while the alias nesting depth is positive), the alias count
exceeds 100, the total count exceeds 1000, and the observed ratio exceeds
the allowed threshold; the threshold is 0.99 up to 400000 total decodes,
0.10 from 4000000 on, and 0.99 - 0.89 * (total - 400000) / 3600000 in
between; the check runs at the head of every node visit. -/
theorem c2_alias_guard :
    (∀ st : DState, (bump st).decodeCount = st.decodeCount + 1 ∧
      (bump st).aliasCount =
        (if 0 < st.aliasDepth then st.aliasCount + 1 else st.aliasCount)) ∧
    (∀ (f : Nat) (h : Heap) (cfg : DecoderCfg) (st : DState) (id : Nat),
      guardCond (bump st) →
      jsonify (f + 1) h cfg st id = .error (.excessiveAliasing, bump st)) ∧
    (∀ (f : Nat) (h : Heap) (cfg : DecoderCfg) (st : DState) (id : Nat) (st' : DState),
      jsonify f h cfg st id = .error (.excessiveAliasing, st') → guardCond st') ∧
    (∀ n : Nat, allowedAliasRatio n = specAllowedRatio n) := by
  refine ⟨fun st => ⟨rfl, rfl⟩, ?_, ?_, allowedAliasRatio_eq_spec⟩
  · intro f h cfg st id hg
    have hb : guardB (bump st) = true := (guardB_iff _).2 hg
    simp [jsonify, hb]
  · intro f h cfg st id st' heq
    exact (guardB_iff _).1 ((excessive_only_when_guard f).1 _ _ _ _ _ heq)

/-- Decoder state just before a visit that trips the ratio guard. -/
def guardSt : DState :=
  { aliases := [], doc := none, decodeCount := 2000, aliasCount := 1999, aliasDepth := 1 }

/-- Witness for C2: at the concrete state with 2000 total and 1999 alias
decodes, the next visit increments both counters and fails with the
excessive-aliasing error. -/
theorem c2_alias_guard_witness :
    guardCond (bump guardSt) ∧
    jsonify 1 [] cfg0 guardSt 0 = .error (.excessiveAliasing, bump guardSt) := by
  have hg : guardCond (bump guardSt) := by
    refine ⟨by norm_num [bump, guardSt], by norm_num [bump, guardSt], ?_⟩
    norm_num [bump, guardSt, allowedAliasRatio, aliasRatioRangeLow]
  exact ⟨hg, c2_alias_guard.2.1 0 [] cfg0 guardSt 0 hg⟩

/-- C7: jsonifyFloat substitutes the configured sentinel for the matching
non-finite float, passes a non-finite float through unchanged when its
sentinel is not configured, and always passes finite floats through. -/
theorem c7_float_sentinels (cfg : DecoderCfg) :
    (∀ v, cfg.NaN = some v → jsonifyFloat cfg .nan = v) ∧
    (cfg.NaN = none → jsonifyFloat cfg .nan = .floatv .nan) ∧
    (∀ v, cfg.PosInf = some v → jsonifyFloat cfg .posInf = v) ∧
    (cfg.PosInf = none → jsonifyFloat cfg .posInf = .floatv .posInf) ∧
    (∀ v, cfg.NegInf = some v → jsonifyFloat cfg .negInf = v) ∧
    (cfg.NegInf = none → jsonifyFloat cfg .negInf = .floatv .negInf) ∧
    (∀ q, jsonifyFloat cfg (.finite q) = .floatv (.finite q)) := by
  refine ⟨?_, ?_, ?_, ?_, ?_, ?_, ?_⟩
  · intro v hv
    cases hP : cfg.PosInf <;> cases hG : cfg.NegInf <;> simp [jsonifyFloat, hv, hP, hG]
  · intro hv
    cases hP : cfg.PosInf <;> cases hG : cfg.NegInf <;> simp [jsonifyFloat, hv, hP, hG]
  · intro v hv
    cases hN : cfg.NaN <;> cases hG : cfg.NegInf <;> simp [jsonifyFloat, hv, hN, hG]
  · intro hv
    cases hN : cfg.NaN <;> cases hG : cfg.NegInf <;> simp [jsonifyFloat, hv, hN, hG]
  · intro v hv
    cases hN : cfg.NaN <;> cases hP : cfg.PosInf <;> simp [jsonifyFloat, hv, hN, hP]
  · intro hv
    cases hN : cfg.NaN <;> cases hP : cfg.PosInf <;> simp [jsonifyFloat, hv, hN, hP]
  · intro q
    cases hN : cfg.NaN <;> cases hP : cfg.PosInf <;> cases hG : cfg.NegInf <;>
      simp [jsonifyFloat, hN, hP, hG]

/-- Configuration whose NaN sentinel is the string nan. -/
def nanStrCfg : DecoderCfg := { cfg0 with NaN := some (.strv "nan") }

/-- Witness for C7: with the NaN sentinel configured as the string nan a
NaN decodes to that string, and with no sentinel it stays a raw NaN. -/
theorem c7_float_sentinels_witness :
    jsonifyFloat nanStrCfg .nan = .strv "nan" ∧
    jsonifyFloat cfg0 .nan = .floatv .nan :=
  ⟨(c7_float_sentinels nanStrCfg).1 _ rfl, (c7_float_sentinels cfg0).2.1 rfl⟩

/-- C9: merging a sequence node with no elements is the identity on the
accumulator map and the decoder state, and does not fail. -/
theorem c9_empty_sequence_merge (fuel : Nat) (h : Heap) (cfg : DecoderCfg)
    (st : DState) (m : MapSlice) (nid : Nat) (n : Node)
    (hn : h[nid]? = some n) (hk : n.Kind = .sequence) (hc : n.Content = []) :
    mergeNode (fuel + 1) h cfg st m nid = .ok (m, st) := by
  simp [mergeNode, hn, hk, hc, mergeSeqRev]

/-- Heap holding a single empty sequence node. -/
def emptySeqHeap : Heap := [ { Kind := .sequence, Content := [], isZero := false } ]

/-- Witness for C9 at a concrete accumulator and heap. -/
theorem c9_empty_sequence_merge_witness :
    mergeNode 5 emptySeqHeap cfg0 initState [("z", .intv 9)] 0 =
      .ok ([("z", .intv 9)], initState) :=
  c9_empty_sequence_merge 4 emptySeqHeap cfg0 initState [("z", .intv 9)] 0
    { Kind := .sequence, Content := [], isZero := false } rfl rfl rfl

/-- C10: Unmarshal builds its Decoder with the NaN sentinel set to the
typed nil float pointer (non-nil as an interface value), the positive
sentinel math.MaxFloat64 and the negative sentinel its negation, so every
non-finite float is substituted and no conversion that succeeds under this
configuration can hand the caller a raw NaN or infinite float. -/
theorem c10_unmarshal_sentinels :
    unmarshalCfg.NaN = some .nilFloatPtr ∧
    unmarshalCfg.NaN ≠ none ∧
    unmarshalCfg.PosInf = some (.floatv (.finite maxFloat64)) ∧
    unmarshalCfg.NegInf = some (.floatv (.finite (-maxFloat64))) ∧
    jsonifyFloat unmarshalCfg .nan = .nilFloatPtr ∧
    jsonifyFloat unmarshalCfg .posInf = .floatv (.finite maxFloat64) ∧
    jsonifyFloat unmarshalCfg .negInf = .floatv (.finite (-maxFloat64)) ∧
    (∀ f : GoFloat, hasNF (jsonifyFloat unmarshalCfg f) = false) ∧
    (∀ (fuel : Nat) (h : Heap) (st : DState) (id : Nat) (v : GoValue) (st' : DState),
      jsonify fuel h unmarshalCfg st id = .ok (v, st') → hasNF v = false) := by
  have hclean : ∀ f : GoFloat, hasNF (jsonifyFloat unmarshalCfg f) = false := by
    refine jsonifyFloat_clean (by simp [unmarshalCfg]) (by simp [unmarshalCfg])
      (by simp [unmarshalCfg]) ?_ ?_ ?_
    · intro v hv
      simp only [unmarshalCfg, Option.some.injEq] at hv
      rw [← hv]; rfl
    · intro v hv
      simp only [unmarshalCfg, Option.some.injEq] at hv
      rw [← hv]; rfl
    · intro v hv
      simp only [unmarshalCfg, Option.some.injEq] at hv
      rw [← hv]; rfl
  refine ⟨rfl, by simp [unmarshalCfg], rfl, rfl, rfl, rfl, rfl, hclean, ?_⟩
  intro fuel h st id v st' heq
  refine (no_nonfinite h unmarshalCfg (by simp [unmarshalCfg]) (by simp [unmarshalCfg])
    (by simp [unmarshalCfg]) ?_ ?_ ?_ fuel).1 _ _ _ _ heq
  · intro v hv
    simp only [unmarshalCfg, Option.some.injEq] at hv
    rw [← hv]; rfl
  · intro v hv
    simp only [unmarshalCfg, Option.some.injEq] at hv
    rw [← hv]; rfl
  · intro v hv
    simp only [unmarshalCfg, Option.some.injEq] at hv
    rw [← hv]; rfl

/-- Witness for C10: converting a document wrapping a NaN scalar under the
Unmarshal configuration succeeds with the nil-float-pointer sentinel, and
the result carries no raw non-finite float. -/
theorem c10_unmarshal_sentinels_witness :
    jsonify 9 nanHeap unmarshalCfg initState 0 =
      .ok (.nilFloatPtr, DState.mk [] (some 0) 2 0 0) ∧
    hasNF .nilFloatPtr = false :=
  ⟨rfl, c10_unmarshal_sentinels.2.2.2.2.2.2.2.2 9 nanHeap initState 0 .nilFloatPtr
    (DState.mk [] (some 0) 2 0 0) rfl⟩



theorem lookupKey_append_left (m ms : MapSlice) (k : String) (v : GoValue)
    (hv : lookupKey m k = some v) : lookupKey (m ++ ms) k = some v := by
  induction m with
  | nil => simp [lookupKey] at hv
  | cons kv rest ih =>
    by_cases hk : kv.1 == k
    · simp [lookupKey, List.find?_cons, hk] at hv ⊢
      exact hv
    · simp only [List.cons_append, lookupKey, List.find?_cons] at hv ⊢
      rw [Bool.eq_false_iff.2 hk] at hv ⊢
      exact ih hv

theorem lookupKey_filter_not_contained (m ms : MapSlice) (k : String)
    (hk : containsKey m k = false) :
    lookupKey (ms.filter (fun kv => ! containsKey m kv.1)) k = lookupKey ms k := by
  induction ms with
  | nil => simp
  | cons kv rest ih =>
    rw [List.filter_cons]
    by_cases hkk : kv.1 == k
    · have hkeq : kv.1 = k := by simpa using hkk
      have : containsKey m kv.1 = false := by rw [hkeq]; exact hk
      simp only [this, Bool.not_false, if_true]
      simp [lookupKey, List.find?_cons, hkk]
    · by_cases hcm : containsKey m kv.1
      · simp only [hcm, Bool.not_true, Bool.false_eq_true, if_false]
        rw [show lookupKey (kv :: rest) k = lookupKey rest k from by
          simp [lookupKey, List.find?_cons, Bool.eq_false_iff.2 hkk]]
        exact ih
      · simp only [Bool.eq_false_iff.2 hcm, Bool.not_false, if_true]
        simp only [lookupKey, List.find?_cons, Bool.eq_false_iff.2 hkk] at ih ⊢
        exact ih

theorem find?_eq_none_of_not_contained (m : MapSlice) (k : String)
    (hk : containsKey m k = false) :
    m.find? (fun kv => kv.1 == k) = none := by
  rw [List.find?_eq_none]
  intro kv hkv
  unfold containsKey at hk
  rw [List.any_eq_false] at hk
  exact fun hb => absurd hb (by simpa using hk kv hkv)

/-- C6 (the Merge method itself is modelled from the spec, the order
package being outside the provided sources): merging a single mapping into
an accumulator preserves every existing key with its value, keeps the
accumulator as the unchanged prefix of the result, adds merge-supplied
keys only when absent, and is exactly what the mapping and alias arms of
merge compute; the spec example with explicit a mapped to 1 merged with a
source mapping a to 2 and b to 3 yields a to 1 and b to 3. -/
theorem c6_merge_precedence :
    (∀ (m ms : MapSlice) (k : String) (v : GoValue),
      lookupKey m k = some v → lookupKey (MapSlice.Merge m ms) k = some v) ∧
    (∀ m ms : MapSlice, (MapSlice.Merge m ms).take m.length = m) ∧
    (∀ (m ms : MapSlice) (k : String),
      containsKey m k = false → lookupKey (MapSlice.Merge m ms) k = lookupKey ms k) ∧
    (∀ (f : Nat) (h : Heap) (cfg : DecoderCfg) (st : DState) (m : MapSlice)
      (nid : Nat) (m2 : MapSlice) (st' : DState),
      mergeConvert (f + 1) h cfg st m nid = .ok (m2, st') →
      ∃ min, jsonify f h cfg st nid = .ok (.mapv min, st') ∧
        m2 = MapSlice.Merge m min) ∧
    resVal (jsonify 30 mapMergeHeap cfg0 initState 0) =
      some (.mapv [("a", .intv 1), ("b", .intv 3)]) := by
  refine ⟨?_, ?_, ?_, ?_, rfl⟩
  · intro m ms k v hv
    exact lookupKey_append_left _ _ _ _ hv
  · intro m ms
    exact List.take_left m _
  · intro m ms k hk
    unfold MapSlice.Merge lookupKey
    rw [List.find?_append, find?_eq_none_of_not_contained m k hk]
    simp only [Option.none_or]
    exact lookupKey_filter_not_contained m ms k hk
  · intro f h cfg st m nid m2 st' heq
    simp only [mergeConvert] at heq
    split at heq
    · cases heq
    · rename_i min st1 hj
      cases heq
      exact ⟨min, hj, rfl⟩
    · cases heq

/-- Witness for C6: in the merged spec example the explicit key keeps its
value. -/
theorem c6_merge_precedence_witness :
    lookupKey (MapSlice.Merge [("a", .intv 1)] [("a", .intv 2), ("b", .intv 3)]) "a" =
      some (.intv 1) :=
  c6_merge_precedence.1 [("a", .intv 1)] [("a", .intv 2), ("b", .intv 3)] "a"
    (.intv 1) rfl

/-- C1 (code bug): on the sequence-merge example of the spec the code
aborts with ErrNotMaps instead of producing the map with x mapped to 1 and
y to 3, because the backwards loop of merge converts the whole sequence
node n rather than the element ni, and the conversion of a sequence node
is never a MapSlice. -/
theorem c1_sequence_merge_code_bug :
    resErr (jsonify 30 seqMergeHeap cfg0 initState 0) = some .notMaps ∧
    resVal (jsonify 30 seqMergeHeap cfg0 initState 0) = none :=
  ⟨rfl, rfl⟩

/-- True exactly of converted values that are Go strings. -/
def isStringValue : GoValue → Bool
  | .strv _ => true
  | _ => false

/-- The String rendering of a decoded time.Time for the first moment of
2001-12-14 UTC, as the yaml library decodes the plain scalar 2001-12-14. -/
def timeKeyStr : String := "2001-12-14 00:00:00 +0000 UTC"

/-- Heap with a single-pair mapping whose key is a timestamp scalar that
the yaml library decodes to a time.Time value. -/
def timeKeyHeap : Heap := [
  { Kind := .mapping, Content := [1, 2], isZero := false },
  { Kind := .scalar, Value := "2001-12-14", Tag := "!!timestamp",
    decoded := some (.timev timeKeyStr), isZero := false },
  { Kind := .scalar, Value := "1", decoded := some (.intv 1), isZero := false }
]

/-- C8 (corrected): once a mapping key node has been converted, a string
value is used directly as the map key regardless of the key marshaller; a
value implementing fmt.Stringer — among the kinds the converter can
receive, a time.Time decoded from a timestamp scalar — is rendered by its
String method, also regardless of the key marshaller; only every other
non-string value is handed to the KeyMarshal collaborator, whose output
string (or failure) becomes the outcome.  Converting the mapping with the
boolean key true under a marshaller that renders booleans yields the entry
with string key true, and converting the mapping with a timestamp key
yields its String rendering even under a marshaller that would fail. -/
theorem c8_key_marshal (cfg : DecoderCfg) (v : GoValue) :
    (∀ s, v = .strv s →
      jsonifyKeyV cfg v = .ok s ∧ ∀ cfg2 : DecoderCfg, jsonifyKeyV cfg2 v = .ok s) ∧
    (∀ s, v = .timev s →
      jsonifyKeyV cfg v = .ok s ∧ ∀ cfg2 : DecoderCfg, jsonifyKeyV cfg2 v = .ok s) ∧
    ((∀ s, v ≠ .strv s) → (∀ s, v ≠ .timev s) →
      (∀ s, cfg.KeyMarshal v = .ok s → jsonifyKeyV cfg v = .ok s) ∧
      (∀ e, cfg.KeyMarshal v = .error e →
        jsonifyKeyV cfg v = .error (.keyMarshalErr e))) ∧
    resVal (jsonify 9 boolKeyHeap cfg0 initState 0) =
      some (.mapv [("true", .intv 1)]) ∧
    resVal (jsonify 9 timeKeyHeap cfg0 initState 0) =
      some (.mapv [(timeKeyStr, .intv 1)]) := by
  refine ⟨?_, ?_, ?_, rfl, rfl⟩
  · rintro s rfl
    exact ⟨rfl, fun cfg2 => rfl⟩
  · rintro s rfl
    exact ⟨rfl, fun cfg2 => rfl⟩
  · intro hns hnt
    constructor
    · intro s hs
      cases v <;> first
        | exact absurd rfl (hns _)
        | exact absurd rfl (hnt _)
        | simp [jsonifyKeyV, hs]
    · intro e he
      cases v <;> first
        | exact absurd rfl (hns _)
        | exact absurd rfl (hnt _)
        | simp [jsonifyKeyV, he]

/-- C8 counterexample: a decoded time.Time key is not a string, yet the
key marshaller is not invoked for it — under the marshaller of cfg0,
which fails on it, jsonifyKey still succeeds with the String rendering
instead of propagating the marshaller failure. -/
theorem c8_stringer_counterexample :
    isStringValue (.timev timeKeyStr) = false ∧
    cfg0.KeyMarshal (.timev timeKeyStr) = .error "unsupported key" ∧
    jsonifyKeyV cfg0 (.timev timeKeyStr) = .ok timeKeyStr ∧
    jsonifyKeyV cfg0 (.timev timeKeyStr) ≠
      .error (.keyMarshalErr "unsupported key") := by
  refine ⟨rfl, rfl, rfl, ?_⟩
  intro hcontra
  rw [show jsonifyKeyV cfg0 (.timev timeKeyStr) = .ok timeKeyStr from rfl] at hcontra
  cases hcontra

/-- Witness for C8: the boolean key true goes through the marshaller and
becomes the string true. -/
theorem c8_key_marshal_witness :
    jsonifyKeyV cfg0 (.boolv true) = .ok "true" :=
  ((c8_key_marshal cfg0 (.boolv true)).2.2.1
    (fun _ h => GoValue.noConfusion h) (fun _ h => GoValue.noConfusion h)).1 "true" rfl



instance wellRankedDecidable (h : Heap) (rl : List Nat) : Decidable (WellRanked h rl) := by
  unfold WellRanked
  infer_instance

/-- C4 (corrected): alias resolution removes the identity from the
in-progress set on the success path (the whole set is restored), but on a
failing recursive conversion the removal is skipped — the Go delete is not
deferred — so the decoder state carried by the propagating failure still
holds the identity. -/
theorem c4_alias_cleanup :
    (∀ (fuel : Nat) (h : Heap) (cfg : DecoderCfg) (st : DState) (id : Nat)
      (v : GoValue) (st' : DState),
      jsonify fuel h cfg st id = .ok (v, st') → st'.aliases = st.aliases) ∧
    (∀ (f : Nat) (h : Heap) (cfg : DecoderCfg) (st : DState) (id : Nat) (n : Node)
      (e : Err) (st' : DState),
      h[id]? = some n → n.Kind = .aliasK → id ∉ st.aliases →
      guardB (bump st) = false →
      jsonify (f + 1) h cfg st id = .error (e, st') → id ∈ st'.aliases) := by
  refine ⟨fun fuel h cfg st id v st' => (aliases_ok fuel).1 h cfg st id v st', ?_⟩
  intro f h cfg st id n e st' hn hk hnm hg heq
  simp only [jsonify, hg, hn, hk, Bool.false_eq_true, if_false] at heq
  split at heq
  · rename_i hmem
    exact absurd (by simpa using hmem) hnm
  · split at heq
    · rename_i hres
      cases heq
      refine (aliases_err f).1 _ _ _ _ _ _ hres ?_
      exact List.mem_cons_self _ _
    · cases heq

/-- C4 counterexample: converting leakHeap fails inside the expansion of
alias node 0, and the decoder state at the failure still holds identity 0
in the in-progress set — it was not removed before the failure
propagated. -/
theorem c4_cleanup_counterexample :
    resErr (jsonify 9 leakHeap cfg0 initState 0) = some .invalidDocument ∧
    0 ∈ (resState (jsonify 9 leakHeap cfg0 initState 0)).aliases :=
  ⟨rfl, by decide⟩

/-- Witness for C4 at leakHeap: the failing conversion leaves identity 0
in the set. -/
theorem c4_alias_cleanup_witness :
    (0 : Nat) ∈ (DState.mk [0] none 2 1 1).aliases :=
  c4_alias_cleanup.2 8 leakHeap cfg0 initState 0
    { Kind := .aliasK, Alias := 1, isZero := false } .invalidDocument
    (DState.mk [0] none 2 1 1) rfl rfl (by decide) (by decide) rfl

/-- C3 (corrected): the session state lives on the Decoder and is not
reset by JSON: the state a call leaves behind (counters included) is the
state the next call on the same Decoder starts from, and an alias-set
entry leaked by a failed first call turns the structural error of the
second call into a cyclic-reference error, while the counters keep
growing across the calls. -/
theorem c3_state_persists :
    (JSON 9 leakHeap cfg0 initState 0).1 = .error .invalidDocument ∧
    (JSON 9 leakHeap cfg0 initState 0).2.aliases = [0] ∧
    (JSON 9 leakHeap cfg0 initState 0).2.decodeCount = 2 ∧
    (JSON 9 leakHeap cfg0 (JSON 9 leakHeap cfg0 initState 0).2 0).1 =
      .error .cycleErr ∧
    (JSON 9 leakHeap cfg0 (JSON 9 leakHeap cfg0 initState 0).2 0).2.decodeCount = 3 :=
  ⟨rfl, rfl, rfl, rfl, rfl⟩

/-- C3 counterexample: a second JSON call on the same Decoder (same node
tree handed over again) does not behave like the first one from the fresh
state — the leaked state changes its outcome. -/
theorem c3_fresh_state_counterexample :
    (JSON 9 leakHeap cfg0 (JSON 9 leakHeap cfg0 initState 0).2 0).1 ≠
      (JSON 9 leakHeap cfg0 initState 0).1 := by
  intro hcontra
  have h1 : (JSON 9 leakHeap cfg0 (JSON 9 leakHeap cfg0 initState 0).2 0).1 =
      .error .cycleErr := rfl
  have h2 : (JSON 9 leakHeap cfg0 initState 0).1 = .error .invalidDocument := rfl
  rw [h1, h2] at hcontra
  cases hcontra

/-- C5 (corrected): on any heap whose Content edges admit a rank table
the conversion cannot exhaust fuel once given the stated bound (the
embedding analogue of terminating rather than looping forever or
overflowing the stack); a visit of an alias node whose identity is already
in progress fails with the cyclic-reference error (when the ratio guard
has not already fired at this visit); and the concrete directly cyclic
heap fails with exactly the cyclic-reference error.  A failure arising
earlier in the traversal can preempt the cyclic-reference error. -/
theorem c5_cycle_detection :
    (∀ (h : Heap) (cfg : DecoderCfg) (rl : List Nat) (maxR : Nat),
      WellRanked h rl → (∀ x ∈ rl, x ≤ maxR) →
      ∀ (st : DState) (id : Nat) (fuel : Nat),
        3 * rnk rl id + 8 + aliasTodo h st.aliases * (4 * maxR + 13) ≤ fuel →
        resErr (jsonify fuel h cfg st id) ≠ some .outOfFuel) ∧
    (∀ (f : Nat) (h : Heap) (cfg : DecoderCfg) (st : DState) (id : Nat) (n : Node),
      h[id]? = some n → n.Kind = .aliasK → id ∈ st.aliases →
      guardB (bump st) = false →
      jsonify (f + 1) h cfg st id = .error (.cycleErr, bump st)) ∧
    resErr (jsonify 9 cycleHeap cfg0 initState 0) = some .cycleErr := by
  refine ⟨?_, ?_, rfl⟩
  · intro h cfg rl maxR hw hb st id fuel hbound
    exact (no_fuel_exhaustion h cfg rl maxR hw hb fuel).1 st id hbound
  · intro f h cfg st id n hn hk hmem hg
    simp [jsonify, hg, hn, hk, hmem]

/-- C5 counterexample: preemptHeap contains an alias (node 2) whose anchor
target (node 3) directly contains an alias back to itself, yet the
conversion fails with the scalar decode error of an earlier sibling
instead of the cyclic-reference error. -/
theorem c5_cycle_error_counterexample :
    preemptHeap[2]? = some { Kind := .aliasK, Alias := 3, isZero := false } ∧
    (preemptHeap.getD 3 {}).Content = [2] ∧
    resErr (jsonify 9 preemptHeap cfg0 initState 0) = some .scalarDecodeErr ∧
    resErr (jsonify 9 preemptHeap cfg0 initState 0) ≠ some .cycleErr :=
  ⟨rfl, rfl, rfl, by decide⟩

/-- Witness for C5: cycleHeap with its rank table satisfies the
hypotheses, and at the stated fuel the (cyclically failing) conversion
does not exhaust fuel. -/
theorem c5_cycle_detection_witness :
    WellRanked cycleHeap cycleRanks ∧ (∀ x ∈ cycleRanks, x ≤ 2) ∧
    resErr (jsonify 35 cycleHeap cfg0 initState 0) ≠ some .outOfFuel := by
  refine ⟨by decide, by decide, ?_⟩
  exact c5_cycle_detection.1 cycleHeap cfg0 cycleRanks 2 (by decide) (by decide)
    initState 0 35 (by decide)


end Yj
